import Mathlib

/-!
Verification of the QLever front-end fragment: the parsed-query AST
(ParsedQuery.cpp), the vocabulary with its collation and range lookups
(Vocabulary.h), and the transitive-path operator (TransitivePath.h).
Strings are modelled as lists of characters; machine strings in the C++
source are byte strings, and all inputs considered here are ASCII, where
the two views agree.
-/

/-- Strings of the C++ source, modelled as lists of characters. -/
abbrev Str := List Char

/-- Conversion from Lean string literals to the model's strings. -/
def toL (s : String) : Str := s.data

/-- Byte-lexicographic comparison, the semantics of operator< on std::string
(ASCII bytes and characters coincide). -/
def lexLt : Str → Str → Bool
  | _, [] => false
  | [], _ :: _ => true
  | a :: as, b :: bs => if a < b then true else if b < a then false else lexLt as bs

/-- Does the first list start with the second?  Models ad_utility::startsWith. -/
def startsWithL : Str → Str → Bool
  | _, [] => true
  | [], _ :: _ => false
  | a :: as, b :: bs => a = b && startsWithL as bs

/-- std::string::find for a substring, searching from position start.
Returns none where the C++ code returns npos. -/
def findSubFrom (s pat : Str) (start : Nat) : Option Nat :=
  (List.range (s.length + 1)).find? fun i =>
    decide (start ≤ i) && startsWithL (s.drop i) pat

/-- std::string::find for a single character from position start. -/
def findCharFrom (s : Str) (c : Char) (start : Nat) : Option Nat :=
  findSubFrom s [c] start

/-- ASCII lowercasing applied per character.  Models
ad_utility::getLowercaseUtf8 (StringUtils.h, outside the visible sources)
on the ASCII inputs relevant here. -/
def lowerL (s : Str) : Str := s.map Char.toLower

/- ===================== PropertyPath (ParsedQuery.cpp) ===================== -/

/-- The Operation enumeration of PropertyPath. -/
inductive PathOperation where
  | SEQUENCE
  | ALTERNATIVE
  | TRANSITIVE
  | TRANSITIVE_MIN
  | TRANSITIVE_MAX
  | INVERSE
  | IRI
deriving DecidableEq, Repr

/-- A PropertyPath node: operation, 16-bit limit, iri text, children. -/
inductive PropertyPath where
  | mk (op : PathOperation) (limit : Nat) (iri : Str)
       (children : List PropertyPath)

/-- The operation of a PropertyPath node. -/
def PropertyPath.opOf : PropertyPath → PathOperation
  | .mk op _ _ _ => op

mutual

/-- PropertyPath::computeCanBeNull (ParsedQuery.cpp:165-176): the flag starts
as "has at least one child", is and-ed with every child's recursively
computed flag, and is overridden to true for TRANSITIVE, TRANSITIVE_MAX and
TRANSITIVE_MIN with limit 0. -/
def computeCanBeNull : PropertyPath → Bool
  | .mk op lim _ children =>
    let base := decide (0 < children.length) && allCanBeNull children
    if op = PathOperation.TRANSITIVE ∨ op = PathOperation.TRANSITIVE_MAX ∨
        (op = PathOperation.TRANSITIVE_MIN ∧ lim = 0) then
      true
    else
      base

/-- Conjunction of computeCanBeNull over a child list (the loop's &=). -/
def allCanBeNull : List PropertyPath → Bool
  | [] => true
  | c :: cs => computeCanBeNull c && allCanBeNull cs

end

/-- The loop's accumulated flag is true exactly when every child's flag is. -/
theorem allCanBeNull_iff (cs : List PropertyPath) :
    allCanBeNull cs = true ↔ ∀ c ∈ cs, computeCanBeNull c = true := by
  induction cs with
  | nil => simp [allCanBeNull]
  | cons c cs ih => simp [allCanBeNull, ih]

/- ===================== SparqlFilter (ParsedQuery.cpp) ===================== -/

/-- The filter-type enumeration of SparqlFilter. -/
inductive FilterType where
  | EQ
  | NE
  | LT
  | LE
  | GT
  | GE
  | LANG_MATCHES
  | FilterPrefix
  | REGEX
deriving DecidableEq, Repr

/-- A SparqlFilter: left side, right side, type, regex case flag. -/
structure SparqlFilter where
  lhs : Str
  rhs : Str
  ftype : FilterType
  regexIgnoreCase : Bool

/-- The operator text emitted for a filter type by the switch in
SparqlFilter::asString (ParsedQuery.cpp:192-229). -/
def filterOpText : FilterType → Bool → Str
  | .EQ, _ => toL " < "
  | .NE, _ => toL " != "
  | .LT, _ => toL " < "
  | .LE, _ => toL " <= "
  | .GT, _ => toL " > "
  | .GE, _ => toL " >= "
  | .LANG_MATCHES, _ => toL " LANG_MATCHES "
  | .FilterPrefix, _ => toL " PREFIX "
  | .REGEX, ric => toL " REGEX " ++ (if ric then toL "ignoring case " else [])

/-- SparqlFilter::asString: FILTER( lhs op rhs ). -/
def SparqlFilter.asString (f : SparqlFilter) : Str :=
  toL "FILTER(" ++ f.lhs ++ filterOpText f.ftype f.regexIgnoreCase ++ f.rhs ++ [')']

/- ===================== Vocabulary collation (Vocabulary.h) ===================== -/

/-- An rdf literal or iri split into components (StringSortComparator::SplitVal). -/
structure SplitVal where
  isLiteral : Bool
  val : Str
  langtag : Str

/-- Modelled from the spec: ad_utility::findLiteralEnd (StringUtils.h, outside
the visible sources) returns the position of the inner closing quotation
mark; per the spec the split scans past the inner quote, with a missing
closing quote leaving the full remainder as the value. -/
def findLiteralEnd (s : Str) : Option Nat := findCharFrom s '"' 0

/-- StringSortComparator::extractComparable: split "value"@lang (or an iri)
into class, inner value and language tag. -/
def extractComparable (a : Str) : SplitVal :=
  if startsWithL a ['"'] then
    let res := a.drop 1
    match findLiteralEnd res with
    | some endPos => ⟨true, res.take endPos, res.drop (endPos + 1)⟩
    | none => ⟨true, res, []⟩
  else
    ⟨false, a, []⟩

/-- The std::mismatch walk of StringSortComparator::caseInsensitiveCompare on
the two lowercased values: equal lists fall through to the tie-break, a
strict prefix is smaller, otherwise the first differing characters decide. -/
def mismatchLt : Str → Str → Bool → Bool
  | [], [], tie => tie
  | [], _ :: _, _ => true
  | _ :: _, [], _ => false
  | x :: xs, y :: ys, tie => if x = y then mismatchLt xs ys tie else decide (x < y)

/-- StringSortComparator::caseInsensitiveCompare: compare lowercased values,
tie-break by language tag, then by the original inner value. -/
def caseInsensitiveCompare (a b : SplitVal) : Bool :=
  mismatchLt (lowerL a.val) (lowerL b.val)
    (if a.langtag ≠ b.langtag then lexLt a.langtag b.langtag else lexLt a.val b.val)

/-- StringSortComparator::operator(): plain byte comparison unless ignoreCase
is set; with ignoreCase, raw comparison across classes and the
case-insensitive comparison within one class. -/
def caseCompare (ignoreCase : Bool) (a b : Str) : Bool :=
  if !ignoreCase then
    lexLt a b
  else
    let sa := extractComparable a
    let sb := extractComparable b
    if sa.isLiteral != sb.isLiteral then lexLt a b
    else caseInsensitiveCompare sa sb

/-- Insert into a list sorted by the comparator. -/
def insertSorted (lt : Str → Str → Bool) (x : Str) : List Str → List Str
  | [] => [x]
  | y :: ys => if lt x y then x :: y :: ys else y :: insertSorted lt x ys

/-- Insertion sort by a strict comparator; with a strict total comparator it
yields the unique sorted order of distinct elements. -/
def sortByLt (lt : Str → Str → Bool) : List Str → List Str
  | [] => []
  | x :: xs => insertSorted lt x (sortByLt lt xs)

/- ===================== Vocabulary range lookups (Vocabulary.h) ===================== -/

/-- A vocabulary: the stored words and the ignore-case collation flag
(compression only changes storage, not the looked-up word values). -/
structure Vocab where
  words : List Str
  ignoreCase : Bool

/-- Vocabulary::lower_bound: on a vocabulary sorted by the active comparator,
std::lower_bound returns the first position whose word is not less than the
query (the list length when every word is smaller). -/
def lowerBound (v : Vocab) (w : Str) : Nat :=
  v.words.findIdx fun a => ! caseCompare v.ignoreCase a w

/-- Vocabulary::at: the word stored at an id. -/
def atId (v : Vocab) (id : Nat) : Str := v.words.getD id []

/-- Vocabulary::getValueIdForLT (Vocabulary.h:358-361): the lower bound. -/
def getValueIdForLT (v : Vocab) (indexWord : Str) : Nat := lowerBound v indexWord

/-- Vocabulary::getValueIdForLE (Vocabulary.h:363-373): the lower bound,
decremented when in bounds, non-zero and not pointing at the word itself. -/
def getValueIdForLE (v : Vocab) (indexWord : Str) : Nat :=
  let lb := lowerBound v indexWord
  if (lb < v.words.length ∧ 0 < lb) ∧ atId v lb ≠ indexWord then lb - 1 else lb

/-- Vocabulary::getValueIdForGT (Vocabulary.h:375-385): same computation as
getValueIdForLE. -/
def getValueIdForGT (v : Vocab) (indexWord : Str) : Nat :=
  let lb := lowerBound v indexWord
  if (lb < v.words.length ∧ 0 < lb) ∧ atId v lb ≠ indexWord then lb - 1 else lb

/-- Vocabulary::getValueIdForGE (Vocabulary.h:387-390): the lower bound. -/
def getValueIdForGE (v : Vocab) (indexWord : Str) : Nat := lowerBound v indexWord

/-- The four-word vocabulary of scenario S5, plain collation. -/
def vocabS5 : Vocab := ⟨[toL "ant", toL "bee", toL "cat", toL "dog"], false⟩

theorem mismatchLt_eq (a b : Str) (tie : Bool) :
    mismatchLt a b tie = if a = b then tie else lexLt a b := by
  induction a generalizing b with
  | nil => cases b <;> simp [mismatchLt, lexLt]
  | cons x xs ih =>
    cases b with
    | nil => simp [mismatchLt, lexLt]
    | cons y ys =>
      by_cases hxy : x = y
      · subst hxy
        simp [mismatchLt, lexLt, ih, lt_irrefl]
      · rcases lt_trichotomy x y with h | h | h
        · simp [mismatchLt, lexLt, hxy, h]
        · exact absurd h hxy
        · have hny : ¬ x < y := not_lt_of_gt h
          simp [mismatchLt, lexLt, hxy, h, hny]

/-- C4: computeCanBeNull is true iff the node is TRANSITIVE, TRANSITIVE_MAX,
TRANSITIVE_MIN with limit 0, or has at least one child with every child
nullable; an IRI leaf is not nullable. -/
theorem c4_canBeNull :
    (∀ (op : PathOperation) (lim : Nat) (iri : Str) (children : List PropertyPath),
      computeCanBeNull (.mk op lim iri children) = true ↔
        (op = .TRANSITIVE ∨ op = .TRANSITIVE_MAX ∨
          (op = .TRANSITIVE_MIN ∧ lim = 0) ∨
          (children ≠ [] ∧ ∀ c ∈ children, computeCanBeNull c = true))) ∧
    (∀ (lim : Nat) (iri : Str), computeCanBeNull (.mk .IRI lim iri []) = false) := by
  constructor
  · intro op lim iri children
    rw [computeCanBeNull]
    by_cases h : op = PathOperation.TRANSITIVE ∨ op = PathOperation.TRANSITIVE_MAX ∨
        (op = PathOperation.TRANSITIVE_MIN ∧ lim = 0)
    · simp only [h, if_true]
      tauto
    · simp only [h, if_false]
      rw [Bool.and_eq_true, allCanBeNull_iff, decide_eq_true_iff, List.length_pos]
      tauto
  · intro lim iri
    rw [computeCanBeNull]
    simp [allCanBeNull]

/-- C2: LT and GE return lower_bound; LE returns lower_bound decremented when
in bounds, non-zero and not pointing at the word; GT computes the same value
as LE; with vocabulary [ant, bee, cat, dog], all four return 2 for cat, and
1, 0, 0, 1 for the absent word bat. -/
theorem c2_rangeBoundaries :
    (∀ (v : Vocab) (w : Str),
      getValueIdForLT v w = lowerBound v w ∧
      getValueIdForGE v w = lowerBound v w ∧
      getValueIdForLE v w =
        (if (lowerBound v w < v.words.length ∧ 0 < lowerBound v w) ∧
            atId v (lowerBound v w) ≠ w
         then lowerBound v w - 1 else lowerBound v w) ∧
      getValueIdForGT v w = getValueIdForLE v w) ∧
    (getValueIdForLT vocabS5 (toL "cat") = 2 ∧ getValueIdForLE vocabS5 (toL "cat") = 2 ∧
     getValueIdForGT vocabS5 (toL "cat") = 2 ∧ getValueIdForGE vocabS5 (toL "cat") = 2 ∧
     getValueIdForLT vocabS5 (toL "bat") = 1 ∧ getValueIdForLE vocabS5 (toL "bat") = 0 ∧
     getValueIdForGT vocabS5 (toL "bat") = 0 ∧ getValueIdForGE vocabS5 (toL "bat") = 1) := by
  exact ⟨fun v w => ⟨rfl, rfl, rfl, rfl⟩, by decide⟩

/-- C7 as stated is false: for the absent word bat the lower bound is the
non-zero position 1, yet getValueIdForLT does not decrement. -/
theorem c7_counterexample :
    toL "bat" ∉ vocabS5.words ∧
    0 < lowerBound vocabS5 (toL "bat") ∧
    getValueIdForLT vocabS5 (toL "bat") ≠ lowerBound vocabS5 (toL "bat") - 1 := by
  decide

/-- C7 amended: for an absent word, getValueIdForLE and getValueIdForGT (not
getValueIdForLT) decrement the lower bound when it is non-zero and within
bounds; getValueIdForLT and getValueIdForGE never decrement, and at position
zero nothing decrements. -/
theorem c7_amended (v : Vocab) (w : Str) (habs : w ∉ v.words) :
    getValueIdForLT v w = lowerBound v w ∧
    getValueIdForGE v w = lowerBound v w ∧
    (0 < lowerBound v w → lowerBound v w < v.words.length →
      getValueIdForGT v w = lowerBound v w - 1 ∧
      getValueIdForLE v w = lowerBound v w - 1) ∧
    (lowerBound v w = 0 →
      getValueIdForGT v w = 0 ∧ getValueIdForLE v w = 0 ∧ getValueIdForLT v w = 0) := by
  refine ⟨rfl, rfl, ?_, ?_⟩
  · intro hpos hlt
    have hmem : atId v (lowerBound v w) ∈ v.words := by
      unfold atId
      rw [List.getD_eq_getElem?_getD, List.getElem?_eq_getElem hlt]
      exact List.getElem_mem _
    have hne : atId v (lowerBound v w) ≠ w := fun h => habs (h ▸ hmem)
    constructor
    · unfold getValueIdForGT
      rw [if_pos ⟨⟨hlt, hpos⟩, hne⟩]
    · unfold getValueIdForLE
      rw [if_pos ⟨⟨hlt, hpos⟩, hne⟩]
  · intro hz
    refine ⟨?_, ?_, ?_⟩
    · unfold getValueIdForGT
      rw [if_neg (by simp [hz])]
      exact hz
    · unfold getValueIdForLE
      rw [if_neg (by simp [hz])]
      exact hz
    · exact hz

theorem c7_witness :
    getValueIdForGT vocabS5 (toL "bat") = 0 ∧ getValueIdForLE vocabS5 (toL "bat") = 0 := by
  have h := (c7_amended vocabS5 (toL "bat") (by decide)).2.2.1 (by decide) (by decide)
  exact ⟨h.1.trans (by decide), h.2.trans (by decide)⟩

/-- C3 as stated is false: under the ignore-case comparator a literal
compares below the iri (the quote byte precedes the angle bracket), so the
sorted order of scenario S4 does not put the non-literal first. -/
theorem c3_counterexample :
    sortByLt (caseCompare true)
      [toL "\"banana\"@en", toL "\"Apple\"", toL "<http://a>",
       toL "\"apple\"@de", toL "\"apple\"@en"] ≠
      [toL "<http://a>", toL "\"Apple\"", toL "\"apple\"@de",
       toL "\"apple\"@en", toL "\"banana\"@en"] ∧
    caseCompare true (toL "\"Apple\"") (toL "<http://a>") = true := by
  decide

/-- C3 amended: classes are compared raw when they differ, and otherwise by
lowercased value, then langtag, then original value; consequently the S4 set
sorts with the non-literal last. -/
theorem c3_amended :
    (∀ a b : Str,
      caseCompare true a b =
        (if (extractComparable a).isLiteral != (extractComparable b).isLiteral then
          lexLt a b
         else if lowerL (extractComparable a).val ≠ lowerL (extractComparable b).val then
          lexLt (lowerL (extractComparable a).val) (lowerL (extractComparable b).val)
         else if (extractComparable a).langtag ≠ (extractComparable b).langtag then
          lexLt (extractComparable a).langtag (extractComparable b).langtag
         else
          lexLt (extractComparable a).val (extractComparable b).val)) ∧
    sortByLt (caseCompare true)
      [toL "\"banana\"@en", toL "\"Apple\"", toL "<http://a>",
       toL "\"apple\"@de", toL "\"apple\"@en"] =
      [toL "\"Apple\"", toL "\"apple\"@de", toL "\"apple\"@en",
       toL "\"banana\"@en", toL "<http://a>"] := by
  constructor
  · intro a b
    rw [caseCompare]
    simp only [Bool.not_true, if_false]
    by_cases hcl : (extractComparable a).isLiteral != (extractComparable b).isLiteral
    · simp [hcl]
    · simp only [hcl, if_false, Bool.false_eq_true]
      rw [caseInsensitiveCompare, mismatchLt_eq]
      by_cases hv : lowerL (extractComparable a).val = lowerL (extractComparable b).val
      · simp [hv]
      · simp [hv]
  · decide

/-- C10: SparqlFilter::asString renders EQ with the same " < " text as LT, so
EQ and LT filters with equal sides print identically. -/
theorem c10_eqFilterPrintsLt :
    (∀ (l r : Str) (ric : Bool),
      SparqlFilter.asString ⟨l, r, .EQ, ric⟩ = SparqlFilter.asString ⟨l, r, .LT, ric⟩) ∧
    filterOpText .EQ false = toL " < " ∧ filterOpText .LT false = toL " < " := by
  exact ⟨fun l r ric => rfl, rfl, rfl⟩

/- ===================== Prefix expansion (ParsedQuery.cpp) ===================== -/

/-- Modelled from the spec: ad_utility::convertToLanguageTaggedPredicate
(Conversions.h, outside the visible sources) canonicalizes a predicate and
its language tag into the distinguished language-tagged IRI shape shared
with the index builder; only its totality matters for the claims here. -/
def convertToLanguageTaggedPredicate (item langtag : Str) : Str :=
  '@' :: langtag ++ '@' :: item

/-- The colon and datatype step of ParsedQuery::expandPrefix
(ParsedQuery.cpp:321-339): i is the first colon anywhere in the item, and
start points just after a ^^ marker when one is present (0 otherwise); when
the colon lies at or after start and the text in between is a declared
prefix, the stored prefix iri loses its trailing angle bracket and is
spliced in, keeping the bytes before start. -/
def expandPrefixCore (item : Str) (pfxMap : List (Str × Str)) : Str :=
  let iOpt := findCharFrom item ':' 0
  let start := match findSubFrom item (toL "^^") 0 with
    | none => 0
    | some p => p + 2
  match iOpt with
  | none => item
  | some i =>
    if start ≤ i then
      match List.lookup ((item.drop start).take (i - start)) pfxMap with
      | some pfxUri =>
          item.take start ++ pfxUri.take (pfxUri.length - 1) ++
            item.drop (i + 1) ++ ['>']
      | none => item
    else item

/-- ParsedQuery::expandPrefix for a single term (ParsedQuery.cpp:304-345):
variables and absolute iris pass unchanged; a term opening with @ must hold
a second @ delimiting the language tag, else a ParseException is thrown;
afterwards the colon and datatype logic runs on the remainder and a captured
language tag is reapplied at the end. -/
def expandPrefixTerm (item : Str) (pfxMap : List (Str × Str)) : Except Str Str :=
  if startsWithL item (toL "?") || startsWithL item (toL "<") then
    .ok item
  else if startsWithL item (toL "@") then
    match findCharFrom item '@' 1 with
    | none =>
        .error (toL "langtaged predicates must have form @lang@ActualPredicate. Second @ is missing in " ++ item)
    | some secondPos =>
        let langtag := (item.drop 1).take (secondPos - 1)
        let rest := item.drop (secondPos + 1)
        .ok (convertToLanguageTaggedPredicate (expandPrefixCore rest pfxMap) langtag)
  else
    .ok (expandPrefixCore item pfxMap)

/- ===================== Alias parsing (ParsedQuery.cpp) ===================== -/

/-- The character class of std::isspace in the C locale. -/
def isSpaceC (c : Char) : Bool :=
  c = ' ' || c = '\t' || c = '\n' || c = Char.ofNat 11 || c = Char.ofNat 12 || c = '\r'

/-- ad_utility::strip with the character set space, tab, newline: remove the
characters from both ends. -/
def stripWs (s : Str) : Str :=
  ((s.dropWhile fun c => c = ' ' || c = '\t' || c = '\n').reverse.dropWhile
    fun c => c = ' ' || c = '\t' || c = '\n').reverse

/-- A recorded alias (in variable, out variable, source text, aggregate flag). -/
structure Alias where
  inVarName : Str
  outVarName : Str
  func : Str
  isAggregate : Bool
deriving DecidableEq, Repr

/-- Index of the first non-space character at or after pos (the skip loops). -/
def skipSpacesFrom (s : Str) (pos : Nat) : Nat :=
  pos + ((s.drop pos).takeWhile isSpaceC).length

/-- The aggregate keywords recognized at the head of an alias. -/
def aggregateHead (lowerInner : Str) : Bool :=
  startsWithL lowerInner (toL "count") || startsWithL lowerInner (toL "group_concat") ||
  startsWithL lowerInner (toL "first") || startsWithL lowerInner (toL "last") ||
  startsWithL lowerInner (toL "sample") || startsWithL lowerInner (toL "min") ||
  startsWithL lowerInner (toL "max") || startsWithL lowerInner (toL "sum") ||
  startsWithL lowerInner (toL "avg")

/-- The candidate-building stage of ParsedQuery::parseAlias
(ParsedQuery.cpp:370-423): require an aggregate head and a spaced as
keyword, take the stripped text after as as the out name and the whole text
as the function, then extract the input variable after the opening bracket,
skipping an optional distinct; the C++ find returning npos makes the
following increment wrap to position 0. -/
def parseAliasCandidate (aliasText : Str) : Except Str Alias :=
  let lowerInner := lowerL aliasText
  if aggregateHead lowerInner then
    match findSubFrom lowerInner (toL " as ") 0 with
    | none => .error (toL "Alias is malformed: keyword as is missing or not surrounded by spaces.")
    | some p =>
      let newVarName := stripWs (aliasText.drop (p + 3))
      let pos2 := match findCharFrom aliasText '(' 1 with
        | some q => q + 1
        | none => 0
      let pos3 := skipSpacesFrom aliasText pos2
      let pos4 := if (lowerInner.drop pos3).take 8 = toL "distinct"
        then skipSpacesFrom aliasText (pos3 + 8) else pos3
      let pos5 := pos4 + ((aliasText.drop pos4).takeWhile fun c => !isSpaceC c).length
      if pos5 = pos4 ∨ aliasText.length ≤ pos5 then
        .error (toL "Alias is malformed: no input variable given")
      else
        .ok ⟨(aliasText.drop pos4).take (pos5 - pos4 - 1), newVarName, aliasText, true⟩
  else
    .error (toL "Unknown or malformed alias")

/-- The duplicate-output check of ParsedQuery::parseAlias
(ParsedQuery.cpp:424-442): walk the recorded aliases; at the first equal out
name, throw when aggregate flag or function text differ, otherwise report
the alias as not unique. -/
def checkDuplicate : List Alias → Alias → Except Str Bool
  | [], _ => .ok true
  | other :: rest, a =>
    if other.outVarName = a.outVarName then
      if other.isAggregate ≠ a.isAggregate ∨ other.func ≠ a.func then
        .error (toL "Two aliases try to bind values to the variable " ++ a.outVarName)
      else .ok false
    else checkDuplicate rest a

/-- ParsedQuery::parseAlias: build the candidate, run the duplicate check,
record the alias only when it is unique, and return the new variable name
together with the updated alias list. -/
def parseAlias (aliases : List Alias) (aliasText : Str) : Except Str (List Alias × Str) :=
  match parseAliasCandidate aliasText with
  | .error e => .error e
  | .ok a =>
    match checkDuplicate aliases a with
    | .error e => .error e
    | .ok true => .ok (aliases ++ [a], a.outVarName)
    | .ok false => .ok (aliases, a.outVarName)

theorem startsWithL_singleton (l : Str) (c : Char) :
    startsWithL l [c] = true ↔ l.head? = some c := by
  cases l <;> simp [startsWithL]

theorem head?_drop (l : Str) (n : Nat) : (l.drop n).head? = l.get? n := by
  induction n generalizing l with
  | zero => cases l <;> rfl
  | succ n ih =>
    cases l with
    | nil => rfl
    | cons a as => simp [ih as]

theorem findCharFrom_eq_none_iff (s : Str) (c : Char) (start : Nat) :
    findCharFrom s c start = none ↔ ∀ j, start ≤ j → s.get? j ≠ some c := by
  rw [findCharFrom, findSubFrom, List.find?_eq_none]
  constructor
  · intro h j hj hc
    have hjl : j < s.length + 1 := by
      by_contra hn
      push_neg at hn
      rw [List.get?_eq_none.mpr (by omega)] at hc
      exact Option.noConfusion hc
    refine h j (List.mem_range.mpr hjl) ?_
    rw [Bool.and_eq_true, decide_eq_true_iff]
    exact ⟨hj, (startsWithL_singleton _ _).mpr (by rw [head?_drop]; exact hc)⟩
  · intro h i _
    intro hcontra
    rw [Bool.and_eq_true, decide_eq_true_iff] at hcontra
    have := (startsWithL_singleton _ _).mp hcontra.2
    rw [head?_drop] at this
    exact h i hcontra.1 this

/-- C9: expandPrefix leaves items opening with a question mark or an angle
bracket unchanged, and it throws exactly when the item opens with an at sign
and holds no second at sign; every other input returns without raising. -/
theorem c9_expandPrefixErrors (item : Str) (pfxMap : List (Str × Str)) :
    (startsWithL item (toL "?") = true ∨ startsWithL item (toL "<") = true →
      expandPrefixTerm item pfxMap = .ok item) ∧
    ((∃ e, expandPrefixTerm item pfxMap = .error e) ↔
      (startsWithL item (toL "?") = false ∧ startsWithL item (toL "<") = false ∧
       item.head? = some '@' ∧ ∀ j, 1 ≤ j → item.get? j ≠ some '@')) := by
  constructor
  · intro h
    rw [expandPrefixTerm]
    rcases h with h | h <;> simp [h]
  · rw [expandPrefixTerm]
    by_cases h1 : startsWithL item (toL "?") = true
    · simp [h1]
    · rw [Bool.not_eq_true] at h1
      by_cases h2 : startsWithL item (toL "<") = true
      · simp [h2]
      · rw [Bool.not_eq_true] at h2
        simp only [h1, h2, Bool.or_self, Bool.false_eq_true, if_false]
        by_cases h3 : startsWithL item (toL "@") = true
        · simp only [h3, if_true]
          cases hfind : findCharFrom item '@' 1 with
          | none =>
            simp only [hfind]
            constructor
            · intro _
              refine ⟨?_, ?_, (startsWithL_singleton item '@').mp h3,
                (findCharFrom_eq_none_iff item '@' 1).mp hfind⟩ <;> trivial
            · intro _
              exact ⟨_, rfl⟩
          | some sp =>
            simp only [hfind]
            constructor
            · rintro ⟨e, he⟩
              exact Except.noConfusion he
            · rintro ⟨-, -, -, hall⟩
              have hnone := (findCharFrom_eq_none_iff item '@' 1).mpr hall
              rw [hfind] at hnone
              exact Option.noConfusion hnone
        · rw [Bool.not_eq_true] at h3
          simp only [h3, Bool.false_eq_true, if_false]
          constructor
          · rintro ⟨e, he⟩
            exact Except.noConfusion he
          · rintro ⟨-, -, hhead, -⟩
            have h3' : startsWithL item [ '@' ] = false := h3
            rw [(startsWithL_singleton item '@').mpr hhead] at h3'
            exact Bool.noConfusion h3'

theorem c9_witness :
    expandPrefixTerm (toL "?x") [] = .ok (toL "?x") ∧
    (∃ e, expandPrefixTerm (toL "@") [] = .error e) := by
  constructor
  · exact (c9_expandPrefixErrors (toL "?x") []).1 (Or.inl rfl)
  · refine (c9_expandPrefixErrors (toL "@") []).2.mpr ⟨rfl, rfl, rfl, ?_⟩
    intro j hj hc
    cases j with
    | zero => omega
    | succ n =>
      have hnone : (toL "@").get? (n + 1) = none := rfl
      rw [hnone] at hc
      exact Option.noConfusion hc

/-- C5 as stated is false: in the term "a:b"^^xsd:int the colon search begins
at the start of the string, finds the colon inside the literal before the ^^
marker, and therefore no expansion happens although xsd is declared. -/
theorem c5_counterexample :
    expandPrefixTerm (toL "\"a:b\"^^xsd:int")
        [(toL "xsd", toL "<http://www.w3.org/2001/XMLSchema#>")] =
      .ok (toL "\"a:b\"^^xsd:int") ∧
    toL "\"a:b\"^^xsd:int" ≠ toL "\"a:b\"^^<http://www.w3.org/2001/XMLSchema#int>" := by
  exact ⟨rfl, by decide⟩

/-- C5 amended: expandPrefix locates the first colon of the whole term; when
that colon lies at or after the end of the ^^ marker and the text between
the marker and the colon is a declared prefix, the stored prefix iri loses
its trailing angle bracket, the local part and a closing angle bracket are
appended, and the bytes up to and including the ^^ marker are preserved. -/
theorem c5_amended (item : Str) (pfxMap : List (Str × Str)) (i m : Nat) (pfxUri : Str)
    (h1 : startsWithL item (toL "?") = false)
    (h2 : startsWithL item (toL "<") = false)
    (h3 : startsWithL item (toL "@") = false)
    (hcol : findCharFrom item ':' 0 = some i)
    (hmark : findSubFrom item (toL "^^") 0 = some m)
    (hge : m + 2 ≤ i)
    (hpfx : List.lookup ((item.drop (m + 2)).take (i - (m + 2))) pfxMap = some pfxUri) :
    expandPrefixTerm item pfxMap =
      .ok (item.take (m + 2) ++ pfxUri.take (pfxUri.length - 1) ++
           item.drop (i + 1) ++ ['>']) := by
  rw [expandPrefixTerm]
  simp only [h1, h2, h3, Bool.or_self, Bool.false_eq_true, if_false]
  rw [expandPrefixCore]
  simp only [hcol, hmark, hge, if_pos, hpfx]

theorem c5_witness :
    expandPrefixTerm (toL "\"5\"^^xsd:int")
        [(toL "xsd", toL "<http://www.w3.org/2001/XMLSchema#>")] =
      .ok (toL "\"5\"^^<http://www.w3.org/2001/XMLSchema#int>") := by
  have h := c5_amended (toL "\"5\"^^xsd:int")
    [(toL "xsd", toL "<http://www.w3.org/2001/XMLSchema#>")] 8 3
    (toL "<http://www.w3.org/2001/XMLSchema#>") rfl rfl rfl (by decide) (by decide)
    (by decide) (by decide)
  exact h.trans (congrArg Except.ok (by decide))

theorem checkDuplicate_spec (l : List Alias) (a other : Alias)
    (hdist : l.Pairwise fun x y => x.outVarName ≠ y.outVarName)
    (hmem : other ∈ l) (hout : other.outVarName = a.outVarName) :
    checkDuplicate l a =
      (if other.isAggregate ≠ a.isAggregate ∨ other.func ≠ a.func then
        .error (toL "Two aliases try to bind values to the variable " ++ a.outVarName)
      else .ok false) := by
  induction l with
  | nil => cases hmem
  | cons x rest ih =>
    rw [List.pairwise_cons] at hdist
    rcases List.mem_cons.mp hmem with rfl | hmem2
    · rw [checkDuplicate, if_pos hout]
    · have hx : ¬ x.outVarName = a.outVarName := by
        rw [← hout]
        exact hdist.1 other hmem2
      rw [checkDuplicate, if_neg hx]
      exact ih hdist.2 hmem2

/-- C8: with distinct recorded output names, an alias whose output name
collides with a recorded alias raises exactly when aggregate flag or source
function text differ; an identical duplicate is tolerated and leaves the
recorded list unchanged. -/
theorem c8_duplicateAliases (aliases : List Alias) (s : Str) (a other : Alias)
    (hcand : parseAliasCandidate s = .ok a)
    (hdist : aliases.Pairwise fun x y => x.outVarName ≠ y.outVarName)
    (hmem : other ∈ aliases)
    (hout : other.outVarName = a.outVarName) :
    ((∃ e, parseAlias aliases s = .error e) ↔
      (other.isAggregate ≠ a.isAggregate ∨ other.func ≠ a.func)) ∧
    ((other.isAggregate = a.isAggregate ∧ other.func = a.func) →
      parseAlias aliases s = .ok (aliases, a.outVarName)) := by
  have hdup := checkDuplicate_spec aliases a other hdist hmem hout
  have hstep : parseAlias aliases s =
      (match checkDuplicate aliases a with
        | .error e => .error e
        | .ok true => .ok (aliases ++ [a], a.outVarName)
        | .ok false => .ok (aliases, a.outVarName)) := by
    rw [parseAlias, hcand]
  by_cases hdiff : other.isAggregate ≠ a.isAggregate ∨ other.func ≠ a.func
  · rw [if_pos hdiff] at hdup
    rw [hdup] at hstep
    refine ⟨⟨fun _ => hdiff, fun _ => ⟨_, hstep⟩⟩, fun hsame => ?_⟩
    rcases hdiff with hd | hd
    · exact absurd hsame.1 hd
    · exact absurd hsame.2 hd
  · rw [if_neg hdiff] at hdup
    rw [hdup] at hstep
    refine ⟨⟨?_, fun h => absurd h hdiff⟩, fun _ => hstep⟩
    rintro ⟨e, he⟩
    rw [hstep] at he
    exact Except.noConfusion he

/-- The alias recorded by scenario S3's first projection. -/
def aliasS3 : Alias := ⟨toL "?x", toL "?n", toL "COUNT(?x) as ?n", true⟩

theorem c8_witness :
    ∃ e, parseAlias [aliasS3] (toL "COUNT(DISTINCT ?x) as ?n") = .error e := by
  have h := c8_duplicateAliases [aliasS3] (toL "COUNT(DISTINCT ?x) as ?n")
    ⟨toL "?x", toL "?n", toL "COUNT(DISTINCT ?x) as ?n", true⟩ aliasS3
    rfl (List.pairwise_singleton _ _) (List.mem_singleton_self _) rfl
  exact h.1.mpr (Or.inr (by decide))

/- ===================== Graph patterns and recomputeIds (ParsedQuery.cpp) ===================== -/

mutual

/-- A graph pattern: its list of child operations (triples, filters and the
optional flag play no role in id assignment). -/
inductive GraphPattern where
  | mk (children : List GPOperation)

/-- A graph-pattern operation: OPTIONAL holds one child pattern, UNION two
(enforced by the constructor checks), SUBQUERY holds the sub-select's root
pattern, TRANS_PATH an inner pattern that may be null. -/
inductive GPOperation where
  | opOptional (child : GraphPattern)
  | opUnion (left right : GraphPattern)
  | opSubquery (query : GraphPattern)
  | opTransPath (inner : Option GraphPattern)

end

mutual

/-- A graph pattern annotated with the ids assigned by the walk; the payload
of a subquery is dropped because the walk leaves its ids untouched. -/
inductive AnnGraphPattern where
  | mk (id : Nat) (children : List AnnGPOperation)

inductive AnnGPOperation where
  | opOptional (child : AnnGraphPattern)
  | opUnion (left right : AnnGraphPattern)
  | opSubquery
  | opTransPath (inner : Option AnnGraphPattern)

end

mutual

/-- ParsedQuery::GraphPattern::recomputeIds (ParsedQuery.cpp:525-553): the
pattern takes the next counter value, the counter is incremented, and the
walk recurses into the child patterns of OPTIONAL and UNION and into the
non-null inner pattern of TRANS_PATH; SUBQUERY children keep their own id
space and are skipped. -/
def recomputeIds : GraphPattern → Nat → AnnGraphPattern × Nat
  | .mk children, c =>
    let r := recomputeIdsOps children (c + 1)
    (.mk c r.1, r.2)

/-- The loop over a pattern's child operations, threading the counter. -/
def recomputeIdsOps : List GPOperation → Nat → List AnnGPOperation × Nat
  | [], c => ([], c)
  | o :: os, c =>
    let r1 := recomputeIdsOp o c
    let r2 := recomputeIdsOps os r1.2
    (r1.1 :: r2.1, r2.2)

/-- The switch over one operation. -/
def recomputeIdsOp : GPOperation → Nat → AnnGPOperation × Nat
  | .opOptional p, c =>
    let r := recomputeIds p c
    (.opOptional r.1, r.2)
  | .opUnion l rr, c =>
    let r1 := recomputeIds l c
    let r2 := recomputeIds rr r1.2
    (.opUnion r1.1 r2.1, r2.2)
  | .opSubquery _, c => (.opSubquery, c)
  | .opTransPath none, c => (.opTransPath none, c)
  | .opTransPath (some p), c =>
    let r := recomputeIds p c
    (.opTransPath (some r.1), r.2)

end

mutual

/-- Erase every subquery payload, the structure recomputeIds can observe. -/
def skel : GraphPattern → GraphPattern
  | .mk children => .mk (skelOps children)

def skelOps : List GPOperation → List GPOperation
  | [] => []
  | o :: os => skelOp o :: skelOps os

def skelOp : GPOperation → GPOperation
  | .opOptional p => .opOptional (skel p)
  | .opUnion l r => .opUnion (skel l) (skel r)
  | .opSubquery _ => .opSubquery (.mk [])
  | .opTransPath none => .opTransPath none
  | .opTransPath (some p) => .opTransPath (some (skel p))

end

mutual

theorem recomputeIds_skel : ∀ (t : GraphPattern) (c : Nat),
    recomputeIds (skel t) c = recomputeIds t c
  | .mk children, c => by
    rw [skel, recomputeIds, recomputeIds, recomputeIdsOps_skelOps children (c + 1)]

theorem recomputeIdsOps_skelOps : ∀ (os : List GPOperation) (c : Nat),
    recomputeIdsOps (skelOps os) c = recomputeIdsOps os c
  | [], c => rfl
  | o :: os, c => by
    rw [skelOps, recomputeIdsOps, recomputeIdsOps, recomputeIdsOp_skelOp o c]
    rw [recomputeIdsOps_skelOps os (recomputeIdsOp o c).2]

theorem recomputeIdsOp_skelOp : ∀ (o : GPOperation) (c : Nat),
    recomputeIdsOp (skelOp o) c = recomputeIdsOp o c
  | .opOptional p, c => by
    rw [skelOp, recomputeIdsOp, recomputeIdsOp, recomputeIds_skel p c]
  | .opUnion l r, c => by
    rw [skelOp, recomputeIdsOp, recomputeIdsOp, recomputeIds_skel l c,
      recomputeIds_skel r (recomputeIds l c).2]
  | .opSubquery q, c => rfl
  | .opTransPath none, c => rfl
  | .opTransPath (some p), c => by
    rw [skelOp, recomputeIdsOp, recomputeIdsOp, recomputeIds_skel p c]

end

/-- The id stored at the root of an annotated pattern. -/
def annRootId : AnnGraphPattern → Nat
  | .mk id _ => id

/-- C6: the walk is pre-order (the root takes the current counter value), and
its result depends only on the tree with subquery payloads erased, so
structurally equal trees ignoring sub-select subtrees receive identical ids. -/
theorem c6_recomputeIds :
    (∀ (t : GraphPattern) (c : Nat), annRootId (recomputeIds t c).1 = c) ∧
    (∀ (t1 t2 : GraphPattern) (c : Nat), skel t1 = skel t2 →
      recomputeIds t1 c = recomputeIds t2 c) := by
  constructor
  · intro t c
    cases t with
    | mk children => rw [recomputeIds, annRootId]
  · intro t1 t2 c h
    rw [← recomputeIds_skel t1 c, ← recomputeIds_skel t2 c, h]

theorem c6_witness :
    recomputeIds (.mk [.opSubquery (.mk [.opOptional (.mk [])]),
                       .opOptional (.mk [])]) 0 =
    recomputeIds (.mk [.opSubquery (.mk []),
                       .opOptional (.mk [])]) 0 := by
  exact c6_recomputeIds.2 _ _ 0 rfl

/- ===================== Transitive path (TransitivePath.h) ===================== -/

/-- Modelled from the spec: TransitivePath.h only declares
computeTransitivePath, its implementation being outside the visible sources.
The step relation of the operator: the sub-result rows projected onto the
two step columns (an IdTable row is a list of ids; column access is total on
well-formed tables). -/
def edgesOf (sub : List (List Nat)) (leftSubCol rightSubCol : Nat) : List (Nat × Nat) :=
  sub.map fun row => (row.getD leftSubCol 0, row.getD rightSubCol 0)

/-- The values appearing as either endpoint of the step relation, the seed
set of the frontier expansion. -/
def nodesOf (es : List (Nat × Nat)) : List Nat :=
  es.map Prod.fst ++ es.map Prod.snd

/-- One frontier step: the image of a node set under the step relation. -/
def stepImage (es : List (Nat × Nat)) (s : List Nat) : List Nat :=
  (es.filter fun e => s.contains e.fst).map Prod.snd

/-- The frontier after exactly k steps starting from x. -/
def reachExact (es : List (Nat × Nat)) (x : Nat) : Nat → List Nat
  | 0 => [x]
  | k + 1 => stepImage es (reachExact es x k)

/-- The pairs emitted for one seed: every target whose step count lies in
the bounds. -/
def boundedPairs (es : List (Nat × Nat)) (minDist maxDist x : Nat) : List (Nat × Nat) :=
  (List.range (maxDist + 1)).flatMap fun k =>
    if minDist ≤ k then (reachExact es x k).map fun y => (x, y) else []

/-- Modelled from the spec: TransitivePath::computeTransitivePath
(TransitivePath.h:71-82, implementation outside the visible sources),
following the semantics and frontier-expansion algorithm of spec section
4.4 with neither side bound by a table: seeds are the endpoint values of
sub, each seed is expanded through the step relation, pairs with step count
in [minDist, maxDist] are emitted, and a constant endpoint retains only the
matching rows. -/
def computeTransitivePath (sub : List (List Nat)) (leftSubCol rightSubCol : Nat)
    (leftIsVar rightIsVar : Bool) (leftValue rightValue : Nat)
    (minDist maxDist : Nat) : List (Nat × Nat) :=
  ((nodesOf (edgesOf sub leftSubCol rightSubCol)).flatMap
      (boundedPairs (edgesOf sub leftSubCol rightSubCol) minDist maxDist)).filter
    fun p => (leftIsVar || p.fst == leftValue) && (rightIsVar || p.snd == rightValue)

/-- A witness path of length k from x to y: a sequence x = v0, ..., vk = y
with every step in the relation, expressed recursively on k. -/
def pathLen (es : List (Nat × Nat)) : Nat → Nat → Nat → Prop
  | 0, x, y => x = y
  | k + 1, x, y => ∃ z, (x, z) ∈ es ∧ pathLen es k z y

theorem pathLen_succ_iff (es : List (Nat × Nat)) (k x y : Nat) :
    pathLen es (k + 1) x y ↔ ∃ z, pathLen es k x z ∧ (z, y) ∈ es := by
  induction k generalizing x with
  | zero =>
    constructor
    · rintro ⟨z, hz, rfl⟩
      exact ⟨x, rfl, hz⟩
    · rintro ⟨z, rfl, hz⟩
      exact ⟨y, hz, rfl⟩
  | succ k ih =>
    constructor
    · rintro ⟨z, hxz, hrest⟩
      obtain ⟨w, hw, hwy⟩ := (ih z).mp hrest
      exact ⟨w, ⟨z, hxz, hw⟩, hwy⟩
    · rintro ⟨w, ⟨z, hxz, hw⟩, hwy⟩
      exact ⟨z, hxz, (ih z).mpr ⟨w, hw, hwy⟩⟩

theorem mem_reachExact (es : List (Nat × Nat)) (x y k : Nat) :
    y ∈ reachExact es x k ↔ pathLen es k x y := by
  induction k generalizing y with
  | zero =>
    simp only [reachExact, List.mem_singleton, pathLen]
    exact eq_comm
  | succ k ih =>
    rw [reachExact, pathLen_succ_iff]
    simp only [stepImage, List.mem_map, List.mem_filter]
    constructor
    · rintro ⟨⟨a, b⟩, ⟨hmem, hcont⟩, rfl⟩
      exact ⟨a, (ih a).mp (List.elem_iff.mp hcont), hmem⟩
    · rintro ⟨z, hz, hmem⟩
      exact ⟨(z, y), ⟨hmem, List.elem_iff.mpr ((ih z).mpr hz)⟩, rfl⟩

theorem pathLen_left_mem (es : List (Nat × Nat)) (k x y : Nat) (hk : k ≠ 0)
    (h : pathLen es k x y) : x ∈ nodesOf es := by
  cases k with
  | zero => exact absurd rfl hk
  | succ k =>
    obtain ⟨z, hz, -⟩ := h
    exact List.mem_append_left _ (List.mem_map.mpr ⟨(x, z), hz, rfl⟩)

theorem mem_ite_nil {c : Prop} [Decidable c] {a : Nat × Nat} {l : List (Nat × Nat)} :
    (a ∈ if c then l else []) ↔ c ∧ a ∈ l := by
  split
  · next h => simp [h]
  · next h => simp [h]

theorem mem_boundedPairs (es : List (Nat × Nat)) (minDist maxDist x0 x y : Nat) :
    (x, y) ∈ boundedPairs es minDist maxDist x0 ↔
      x = x0 ∧ ∃ k, minDist ≤ k ∧ k ≤ maxDist ∧ y ∈ reachExact es x0 k := by
  rw [boundedPairs, List.mem_flatMap]
  constructor
  · rintro ⟨k, hk, hmem⟩
    rw [List.mem_range] at hk
    rw [mem_ite_nil] at hmem
    obtain ⟨hmin, hmem⟩ := hmem
    rw [List.mem_map] at hmem
    obtain ⟨y0, hy0, heq⟩ := hmem
    injection heq with h1 h2
    subst h1
    subst h2
    exact ⟨rfl, k, hmin, by omega, hy0⟩
  · rintro ⟨rfl, k, hmin, hmax, hy⟩
    refine ⟨k, List.mem_range.mpr (by omega), ?_⟩
    rw [mem_ite_nil]
    exact ⟨hmin, List.mem_map.mpr ⟨y, hy, rfl⟩⟩

/-- C1: computeTransitivePath produces exactly the pairs joined by a witness
path of length within [minDist, maxDist] (the zero-length pair (x, x)
requiring minDist = 0 and x to appear as an endpoint of sub), restricted on
a constant endpoint to the matching rows. -/
theorem c1_computeTransitivePath (sub : List (List Nat)) (leftSubCol rightSubCol : Nat)
    (leftIsVar rightIsVar : Bool) (leftValue rightValue : Nat)
    (minDist maxDist : Nat) (x y : Nat) :
    (x, y) ∈ computeTransitivePath sub leftSubCol rightSubCol leftIsVar rightIsVar
        leftValue rightValue minDist maxDist ↔
      (((∃ k, minDist ≤ k ∧ k ≤ maxDist ∧ k ≠ 0 ∧
          pathLen (edgesOf sub leftSubCol rightSubCol) k x y) ∨
        (minDist = 0 ∧ x = y ∧ x ∈ nodesOf (edgesOf sub leftSubCol rightSubCol))) ∧
       (leftIsVar = false → x = leftValue) ∧
       (rightIsVar = false → y = rightValue)) := by
  rw [computeTransitivePath, List.mem_filter, List.mem_flatMap]
  constructor
  · rintro ⟨⟨x0, hx0, hbp⟩, hflt⟩
    rw [mem_boundedPairs] at hbp
    obtain ⟨rfl, k, hmin, hmax, hy⟩ := hbp
    rw [mem_reachExact] at hy
    rw [Bool.and_eq_true, Bool.or_eq_true, Bool.or_eq_true, beq_iff_eq, beq_iff_eq] at hflt
    refine ⟨?_, ?_, ?_⟩
    · cases k with
      | zero => exact Or.inr ⟨Nat.le_zero.mp hmin, hy, hx0⟩
      | succ k => exact Or.inl ⟨k + 1, hmin, hmax, Nat.succ_ne_zero k, hy⟩
    · intro hlv
      rcases hflt.1 with h | h
      · rw [hlv] at h
        exact Bool.noConfusion h
      · exact h
    · intro hrv
      rcases hflt.2 with h | h
      · rw [hrv] at h
        exact Bool.noConfusion h
      · exact h
  · rintro ⟨hpath, hlv, hrv⟩
    constructor
    · rcases hpath with ⟨k, hmin, hmax, hk0, hp⟩ | ⟨hm0, rfl, hx⟩
      · refine ⟨x, pathLen_left_mem _ k x y hk0 hp, ?_⟩
        rw [mem_boundedPairs]
        exact ⟨rfl, k, hmin, hmax, (mem_reachExact _ _ _ _).mpr hp⟩
      · refine ⟨x, hx, ?_⟩
        rw [mem_boundedPairs]
        exact ⟨rfl, 0, by omega, by omega, (mem_reachExact _ _ _ _).mpr rfl⟩
    · rw [Bool.and_eq_true, Bool.or_eq_true, Bool.or_eq_true, beq_iff_eq, beq_iff_eq]
      constructor
      · cases leftIsVar with
        | true => exact Or.inl rfl
        | false => exact Or.inr (hlv rfl)
      · cases rightIsVar with
        | true => exact Or.inl rfl
        | false => exact Or.inr (hrv rfl)
